import Mathlib

/-!
Verification of the corset constraint-system compiler against its
natural-language specification.

The definitions below are a shallow embedding of the Rust sources:

* `src/compiler/common.rs` — the column type lattice (`Ty`, source name
  `Type`), arity validation (`Arity`), and qualified names (`Handle`);
* `src/transformer/inverses.rs` — the inverse / normalisation pass
  (`Node.doNormalize`, `ConstraintSet.expandNormalizations`);
* `src/import.rs` — trace loading (`parseColumn`, `fillTraces`).

Types that the sources use but that are declared in other files of the
repository (the IR `Node`, `ConstraintSet`, `Magma`, `pure_eval`, the
column store operations) are modelled from the specification; each such
definition says so in its doc comment.
-/

/-! ## `common.rs`: the column type -/

/-- The type of a column in the IR (source enum `Type` in
`src/compiler/common.rs`; named `Ty` because `Type` is reserved). -/
inductive Ty where
  | Numeric
  | Boolean
  | Void
deriving DecidableEq, Repr, Fintype

/-- Embedding of `impl Ord for Type::cmp` from `src/compiler/common.rs`:
`(Numeric, Boolean)` is `Greater`, `(Boolean, Numeric)` is `Less`, every
other pair is `Equal`. -/
def Ty.cmp : Ty → Ty → Ordering
  | .Numeric, .Boolean => .gt
  | .Boolean, .Numeric => .lt
  | _, _ => .eq

/-- Rust `Ord::max` (`max_by`) specialised to `Ty.cmp`: returns the first
argument when the comparison is `Greater`, the second otherwise. -/
def Ty.max (a b : Ty) : Ty :=
  match Ty.cmp a b with
  | .gt => a
  | _ => b

/-- `Magma::is_binary`. Modelled from the spec: the magma of a column is
its `Type`; a binary magma is the `Boolean` one. -/
def Ty.isBinary (t : Ty) : Bool := t = Ty.Boolean

/-- `Magma::invert`. Modelled from the spec (§4.4: `Inv, Normalize →
Numeric`): inverting any magma yields the numeric one. -/
def Ty.invert (_ : Ty) : Ty := Ty.Numeric

/-! ## `common.rs`: arity validation -/

/-- Source enum `Arity` from `src/compiler/common.rs` (the commented-out
variants `AtMost`, `Even`, `Odd` are omitted as in the source). -/
inductive Arity where
  | atLeast (n : Nat)
  | monadic
  | dyadic
  | exactly (n : Nat)
  | between (a b : Nat)
deriving DecidableEq, Repr

/-- Helper `arg_count` inside `Arity::make_error`. -/
def argCount (x : Nat) : String :=
  toString x ++ " argument" ++ (if x > 1 then "s" else "")

/-- Embedding of `Arity::make_error`. -/
def Arity.makeError : Arity → Nat → String
  | .atLeast x, l =>
      "expected at least " ++ argCount x ++ ", but received " ++ toString l
  | .monadic, l => "expected " ++ argCount 1 ++ ", but received " ++ toString l
  | .dyadic, l => "expected " ++ argCount 2 ++ ", but received " ++ toString l
  | .exactly x, l => "expected " ++ argCount x ++ ", but received " ++ toString l
  | .between x y, l =>
      "expected between " ++ argCount x ++ " and " ++ argCount y ++
        ", but received " ++ toString l

/-- The boolean condition checked by `Arity::validate`. -/
def Arity.accepts : Arity → Nat → Bool
  | .atLeast x, l => l ≥ x
  | .monadic, l => l = 1
  | .dyadic, l => l = 2
  | .exactly x, l => l = x
  | .between x y, l => l ≥ x && l ≤ y

/-- Embedding of `Arity::validate` from `src/compiler/common.rs`:
`Ok(())` when the argument count satisfies the arity, otherwise the
error built by `make_error`. -/
def Arity.validate (a : Arity) (l : Nat) : Except String Unit :=
  if a.accepts l then .ok () else .error (a.makeError l)

/-! ## `common.rs`: handles -/

/-- Source struct `Handle` from `src/compiler/common.rs`. -/
structure Handle where
  module : String
  name : String
deriving DecidableEq, Repr

/-- Character-level replacement: `c` becomes `_` when it equals the
pattern `p`. -/
def repl (p c : Char) : Char := if c = p then '_' else c

/-- One step of `Handle::purify`: Rust `str::replace(p, "_")` for a
single-character pattern, i.e. a character-wise replacement. -/
def replaceChar (p : Char) (s : String) : String :=
  String.mk (s.data.map (repl p))

/-- Embedding of `Handle::purify`: the source chains ten `replace`
calls, for `(`, `)`, `{`, `}`, `[`, `]`, `/`, `:`, `%`, `.` in that
order. -/
def Handle.purify (s : String) : String :=
  replaceChar '.' (replaceChar '%' (replaceChar ':' (replaceChar '/'
    (replaceChar ']' (replaceChar '[' (replaceChar '\x7d' (replaceChar '\x7b'
      (replaceChar ')' (replaceChar '(' s)))))))))

/-- Embedding of `Handle::mangle`: purified module, then the module
separator `__` (omitted when the module is empty), then the purified
name. -/
def Handle.mangle (h : Handle) : String :=
  Handle.purify h.module ++ (if h.module = "" then "" else "__") ++
    Handle.purify h.name

/-- Embedding of `impl Display for Handle`: `module.name`. -/
def Handle.display (h : Handle) : String := h.module ++ "." ++ h.name

/-- The character set named by the claim's amended reading of mangling:
exactly the ten characters replaced by `Handle::purify`. -/
def isPurified (c : Char) : Prop :=
  c = '(' ∨ c = ')' ∨ c = '\x7b' ∨ c = '\x7d' ∨ c = '[' ∨ c = ']' ∨
    c = '/' ∨ c = ':' ∨ c = '%' ∨ c = '.'

instance (c : Char) : Decidable (isPurified c) := by
  unfold isPurified; infer_instance

/-- Single-pass character-wise form of purification over the ten-character
set, used to state what `Handle.purify` computes. -/
def purifyChar (s : String) : String :=
  String.mk (s.data.map (fun c => if isPurified c then '_' else c))

/-- The *claim's* mangling, word for word: every non-alphanumeric
character of module and name replaced by `_`, the two parts always
joined by `__`. Stated from the spec sentence for comparison with the
source's `Handle.mangle`. -/
def Handle.mangleClaim (h : Handle) : String :=
  String.mk (h.module.data.map (fun c => if c.isAlphanum then c else '_')) ++
    "__" ++
    String.mk (h.name.data.map (fun c => if c.isAlphanum then c else '_'))

/-! ## The polynomial IR

The IR `Node` type, its intrinsics and its constant evaluator live in
files of the repository outside the sources at hand (only
`src/transformer/inverses.rs` uses them here); they are modelled from
the specification (§3 *Node (IR)*, §4.4 *Type propagation* and
*Constant folding*). -/

/-- Modelled from the spec: trace and IR values live in the configured
prime field; modelled as `ℚ` (a field in which, as Lean defines it,
`0⁻¹ = 0`, matching the spec's `inverse(0) = 0` convention for
normalisation columns). -/
abbrev CValue : Type := ℚ

/-- `Value::zero()`. -/
def CValue.zero : CValue := (0 : ℚ)

/-- `Value::inverse()`: the field inverse, with `inverse 0 = 0`
(spec §3, Normalization invariant). -/
def CValue.inverse (v : CValue) : CValue := v⁻¹

/-- Modelled from the spec: `Column Kind` is one of `Atomic`, `Phantom`,
`Computed`. -/
inductive Kind where
  | atomic
  | phantom
  | computed
deriving DecidableEq, Repr

/-- Modelled from the spec (§3): the closed set of intrinsics. -/
inductive Intrinsic where
  | add | sub | mul | neg | inv | normalize | exp | shift | nth
  | eq | isnot | begin | ifZero | ifNotZero
deriving DecidableEq, Repr

/-- Modelled from the spec: a column reference is resolved by handle. -/
def ColumnRef : Type := Handle
deriving DecidableEq, Repr

mutual
/-- Modelled from the spec (§3 *Node (IR)*): a tree whose leaves are
constants, column references and `Void`, whose internal nodes are
intrinsic calls or lists, every node carrying its cached type.
`NodeList` is the (isomorphic) list of argument nodes. -/
inductive Node where
  | const (v : CValue) (t : Ty)
  | column (r : ColumnRef) (k : Kind) (t : Ty)
  | void
  | funcall (f : Intrinsic) (args : NodeList) (t : Ty)
  | list (args : NodeList) (t : Ty)

inductive NodeList where
  | nil
  | cons (hd : Node) (tl : NodeList)
end

/-- `Node::t()`: the cached type of a node (`Void` for the void node). -/
def Node.t : Node → Ty
  | .const _ t => t
  | .column _ _ t => t
  | .void => Ty.Void
  | .funcall _ _ t => t
  | .list _ t => t

def NodeList.length : NodeList → Nat
  | .nil => 0
  | .cons _ tl => tl.length + 1

def NodeList.append : NodeList → NodeList → NodeList
  | .nil, l => l
  | .cons h tl, l => .cons h (tl.append l)

/-- Modelled from the spec: the join of the argument types, folded with
the order induced by `Ty.cmp` (Rust `Ord::max`), starting from `Void`. -/
def NodeList.joinTypes : NodeList → Ty
  | .nil => Ty.Void
  | .cons h tl => Ty.max h.t tl.joinTypes

/-- Modelled from the spec (§4.4 *Type propagation*): the cached type
`Intrinsic::call` gives a freshly built funcall node. -/
def Intrinsic.callType : Intrinsic → NodeList → Ty
  | .inv, _ => Ty.Numeric
  | .normalize, _ => Ty.Numeric
  | _, args => args.joinTypes

/-- Modelled from the spec: `Intrinsic::call` builds a funcall node over
its arguments, caching the propagated type (its arity check cannot fail
on the argument lists built by the inverse pass, whose `unwrap` is
therefore elided). -/
def Intrinsic.call (f : Intrinsic) (args : NodeList) : Node :=
  Node.funcall f args (f.callType args)

/-- Modelled from the spec: `Node::from_value` wraps a value as a
constant node, classified `Boolean` when binary and `Numeric`
otherwise (§ Glossary, *Magma / Type*). -/
def Node.fromValue (v : CValue) : Node :=
  Node.const v (if v = 0 ∨ v = 1 then Ty.Boolean else Ty.Numeric)

/-- Modelled from the spec (§4.4 *Constant folding*): evaluation of one
intrinsic over constant argument values, exact and unbounded; the
intrinsics that are not arithmetic are not folded. -/
def Intrinsic.evalConst : Intrinsic → List CValue → Option CValue
  | .add, vs => some (vs.foldl (· + ·) 0)
  | .sub, v :: vs => some (vs.foldl (· - ·) v)
  | .mul, vs => some (vs.foldl (· * ·) 1)
  | .neg, [v] => some (-v)
  | .inv, [v] => some v.inverse
  | .normalize, [v] => some (if v = 0 then (0 : CValue) else 1)
  | _, _ => none

mutual
/-- Modelled from the spec (§4.4): `Node::pure_eval` evaluates a subtree
all of whose leaves are constants, and fails on any other subtree. -/
def Node.pureEval : Node → Option CValue
  | .const v _ => some v
  | .column _ _ _ => none
  | .void => none
  | .funcall f args _ =>
      match args.pureEvalList with
      | some vs => f.evalConst vs
      | none => none
  | .list _ _ => none

def NodeList.pureEvalList : NodeList → Option (List CValue)
  | .nil => some []
  | .cons h tl =>
      match h.pureEval, tl.pureEvalList with
      | some v, some vs => some (v :: vs)
      | _, _ => none
end

mutual
/-- `Node::dependencies`: the column references occurring in a node.
Modelled from the spec (the source returns them as a set; the order is
irrelevant to its only consumer, `module_for`). -/
def Node.dependencies : Node → List ColumnRef
  | .const _ _ => []
  | .column r _ _ => [r]
  | .void => []
  | .funcall _ args _ => args.dependenciesList
  | .list args _ => args.dependenciesList

def NodeList.dependenciesList : NodeList → List ColumnRef
  | .nil => []
  | .cons h tl => h.dependencies ++ tl.dependenciesList
end

/-- Modelled from the spec (§4.5): `ColumnSet::module_for` returns the
module owning a dependency set when it is unique, and nothing when the
set is empty or spans several modules. -/
def moduleFor : List ColumnRef → Option String
  | [] => none
  | r :: rest => if rest.all (fun x => x.module = r.module) then some r.module else none

mutual
/-- A deterministic rendering of a node as an identifier fragment,
used by `expressionToName`. Modelled from the spec (§4.5 derives the
inverse column's handle from the mangled expression; the exact
rendering is unspecified). -/
def Node.key : Node → String
  | .const _ _ => "cst"
  | .column r _ _ => r.module ++ "_" ++ r.name
  | .void => "void"
  | .funcall _ args _ => "fn_" ++ args.keyList
  | .list args _ => "list_" ++ args.keyList

def NodeList.keyList : NodeList → String
  | .nil => ""
  | .cons h tl => h.key ++ "_" ++ tl.keyList
end

/-- Modelled from the spec (§4.5): `expression_to_name` renders an
expression under a prefix, giving handles such as `INV_<expr>`. -/
def expressionToName (e : Node) (p : String) : String := p ++ "_" ++ e.key

/-! ## Constraint sets -/

/-- Modelled from the spec (§3 *Constraint*): the tagged union of
constraint kinds (`src/transformer/inverses.rs` matches `Vanishes` and
builds `Normalization`). -/
inductive Constraint where
  | vanishes (handle : Handle) (domain : Option (List Int)) (expr : Node)
  | inRange (handle : Handle) (expr : Node) (max : CValue)
  | plookup (handle : Handle) (included including : List Node)
  | permutation (handle : Handle) (froms tos : List ColumnRef)
  | normalization (handle : Handle) (reference : Node) (inverted : ColumnRef)

/-- Modelled from the spec (§3 *Computation*): how a computed column's
values are obtained (only `Composite` is built by the inverse pass). -/
inductive Computation' where
  | composite (target : ColumnRef) (exp : Node)
  | interleaved (target : ColumnRef) (froms : List ColumnRef)
  | sorted (froms tos : List ColumnRef) (signs : List Bool)

/-- Modelled from the spec (§3 *Column*): the per-column record kept by
the column store (the fields the sources at hand read). -/
structure ColumnInfo where
  t : Ty
  padding : Option CValue
  kind : Kind
deriving DecidableEq, Repr

/-- Association-list lookup, the meaning of the store's keyed maps. -/
def alookup {α β : Type} [DecidableEq α] : List (α × β) → α → Option β
  | [], _ => none
  | (k, v) :: tl, a => if k = a then some v else alookup tl a

/-- Modelled from the spec (§3, §4.7): the top-level container —
constraints, column store (columns, registers, per-module minimum
length and effective length, spilling), computations, and the loaded
values. -/
structure ConstraintSet where
  constraints : List Constraint
  columns : List (Handle × ColumnInfo)
  registers : List (Handle × Ty)
  computations : List (Handle × Computation')
  minLen : List (String × Nat)
  spilling : List (Handle × Int)
  effLens : List (String × Int)
  columnValues : List (Handle × List CValue × Int)
  registerValues : List (Handle × List CValue × Int)

/-! ## `transformer/inverses.rs`: the inverse / normalisation pass -/

/-- Embedding of `invert_expr`: `Intrinsic::Inv.call(&[e])`. -/
def invertExpr (e : Node) : Node := Intrinsic.inv.call (.cons e .nil)

mutual
/-- Embedding of `Node::do_normalize` from `src/transformer/inverses.rs`.
The mutable receiver and the `new_cols` vector are threaded explicitly;
`gm` is the `get_module` closure. A subtree that `pure_eval` can
evaluate is replaced by the inverse of its value; lists and funcall
arguments are processed recursively; a `Normalize` call whose argument
is binary is replaced by the argument, any other one by
`Mul(arg, inverted_column)` while `(handle, arg)` is pushed onto
`new_cols`. The source asserts that `Normalize` has exactly one
argument; on an (unreachable) ill-formed node this embedding leaves the
node in place. -/
def Node.doNormalize (gm : List ColumnRef → String) :
    Node → List (Handle × Node) → Node × List (Handle × Node)
  | n, cols =>
    match n.pureEval with
    | some x => (Node.fromValue x.inverse, cols)
    | none =>
      match n with
      | .list args t =>
          let r := NodeList.doNormalizeList gm args cols
          (.list r.1 t, r.2)
      | .funcall f args t =>
          let r := NodeList.doNormalizeList gm args cols
          if f = .normalize then
            match r.1 with
            | .cons arg .nil =>
              if arg.t.isBinary then (arg, r.2)
              else
                let m := gm arg.dependencies
                let inverted := Handle.mk m (expressionToName arg "INV")
                (Intrinsic.mul.call
                    (.cons arg
                      (.cons (Node.column inverted Kind.computed t.invert) .nil)),
                  r.2 ++ [(inverted, arg)])
            | other => (.funcall f other t, r.2)
          else (.funcall f r.1 t, r.2)
      | other => (other, cols)

def NodeList.doNormalizeList (gm : List ColumnRef → String) :
    NodeList → List (Handle × Node) → NodeList × List (Handle × Node)
  | .nil, cols => (.nil, cols)
  | .cons h tl, cols =>
      let r := h.doNormalize gm cols
      let rs := NodeList.doNormalizeList gm tl r.2
      (.cons r.1 rs.1, rs.2)
end

/-- The loop of `expand_normalizations` over the constraints: every
`Vanishes` expression is rewritten in place, threading `new_cols`. -/
def normalizeConstraints (gm : List ColumnRef → String) :
    List Constraint → List (Handle × Node) →
      List Constraint × List (Handle × Node)
  | [], cols => ([], cols)
  | .vanishes h d e :: rest, cols =>
      let r := e.doNormalize gm cols
      let rs := normalizeConstraints gm rest r.2
      (.vanishes h d r.1 :: rs.1, rs.2)
  | c :: rest, cols =>
      let rs := normalizeConstraints gm rest cols
      (c :: rs.1, rs.2)

/-- The column record inserted for an inverse column:
`Column::builder().handle(..).kind(Kind::Computed).build()` (the
builder's defaults supply a numeric type and no padding; modelled from
the spec). -/
def newComputedColumn : ColumnInfo :=
  { t := Ty.Numeric, padding := none, kind := Kind.computed }

/-- The second loop of `expand_normalizations`: for every `(handle, e)`
pushed by the traversal whose handle is not yet a column
(`by_handle(..).is_err()`), insert the computed column and its register
(`insert_column_and_register`), record the `Composite` computation
defining it as `Inv(e)` (`computations.insert`, which fails on a
duplicate target), and append the `Normalization` constraint. -/
def insertNewCols : ConstraintSet → List (Handle × Node) →
    Except String ConstraintSet
  | cs, [] => .ok cs
  | cs, (invertedHandle, expr) :: rest =>
      if (alookup cs.columns invertedHandle).isSome then
        insertNewCols cs rest
      else if (alookup cs.computations invertedHandle).isSome then
        .error ("computation already defined for " ++ invertedHandle.display)
      else
        insertNewCols
          { cs with
            columns := cs.columns ++ [(invertedHandle, newComputedColumn)],
            computations := cs.computations ++
              [(invertedHandle, Computation'.composite invertedHandle (invertExpr expr))],
            constraints := cs.constraints ++
              [Constraint.normalization
                (Handle.mk invertedHandle.module ("NORM[" ++ expr.key ++ "]"))
                expr invertedHandle] }
          rest

/-- Embedding of `ConstraintSet::expand_normalizations` from
`src/transformer/inverses.rs`. The `get_module` closure is
`columns.module_for(..).unwrap()`; the source panics on a dependency
set spanning several modules, modelled by the empty module name. -/
def ConstraintSet.expandNormalizations (cs : ConstraintSet) :
    Except String ConstraintSet :=
  let gm := fun refs => (moduleFor refs).getD ""
  let r := normalizeConstraints gm cs.constraints []
  insertNewCols { cs with constraints := r.1 } r.2

/-! ## `import.rs`: trace loading -/

mutual
/-- The semantic shape of a parsed JSON trace (spec §6 *Trace input*):
a nested map of modules and column names ending in ordered sequences of
decimal numbers or numeric strings; any other leaf is ignored by the
loader. -/
inductive Json where
  | obj (fields : JFields)
  | arr (elems : JList)
  | num (s : String)
  | str (s : String)
  | null

inductive JFields where
  | nil
  | cons (k : String) (v : Json) (tl : JFields)

inductive JList where
  | nil
  | cons (hd : Json) (tl : JList)
end

def JList.length : JList → Nat
  | .nil => 0
  | .cons _ tl => tl.length + 1

/-- The numeric value of a decimal digit. -/
def charDigit (c : Char) : Option Nat :=
  if c.isDigit then some (c.toNat - '0'.toNat) else none

/-- Decimal parse of a non-empty digit string. -/
def parseNatChars : List Char → Option Nat
  | [] => none
  | l => l.foldl
      (fun acc c =>
        match acc, charDigit c with
        | some n, some d => some (n * 10 + d)
        | _, _ => none)
      (some 0)

/-- Decimal parse of an optionally signed integer. -/
def parseIntChars : List Char → Option Int
  | '-' :: rest => (parseNatChars rest).map (fun n => -(n : Int))
  | l => (parseNatChars l).map (fun n => (n : Int))

/-- Modelled from the spec (§7 *Trace errors*, numeric parse failure):
`Value::from(&str)` parses a decimal integer into a field value. -/
def parseValueStr (s : String) : Except String CValue :=
  match parseIntChars s.data with
  | some i => .ok ((i : ℚ) : CValue)
  | none => .error ("while parsing " ++ s)

/-- Modelled from the spec: `Magma::rm().validate(..)` checks a parsed
value against the column's magma — a binary column only accepts `0` and
`1`, a numeric one accepts everything. -/
def validateMagma (t : Ty) (v : CValue) : Except String CValue :=
  if t = Ty.Boolean ∧ ¬(v = CValue.zero ∨ v = (1 : ℚ)) then
    .error "value out of range for its magma"
  else .ok v

/-- One element of `parse_column`'s map: a JSON number or string is
parsed and validated, anything else is `expected numeric value`. -/
def parseOne (t : Ty) : Json → Except String CValue
  | .num n => match parseValueStr n with
      | .ok v => validateMagma t v
      | .error e => .error e
  | .str s => match parseValueStr s with
      | .ok v => validateMagma t v
      | .error e => .error e
  | _ => .error "expected numeric value"

/-- The `collect::<Result<Vec<_>>>` over a column's elements. -/
def parseElems (t : Ty) : JList → Except String (List CValue)
  | .nil => .ok []
  | .cons x tl =>
      match parseOne t x, parseElems t tl with
      | .ok v, .ok vs => .ok (v :: vs)
      | .error e, _ => .error e
      | _, .error e => .error e

/-- Embedding of `parse_column` from `src/import.rs`: the result vector
starts from a single zero value (`vec![CValue::zero()]`) and is
extended with the parsed elements in order (the `maybe_warn` call only
logs and the per-process cache is semantically the identity). -/
def parseColumn (xs : JList) (t : Ty) : Except String (List CValue) :=
  match parseElems t xs with
  | .ok vs => .ok (CValue.zero :: vs)
  | .error e => .error e

/-- Rust `Vec::resize` / `resize_with` with a constant filler: truncate
to `n` when too long, append copies of `v` up to `n` when too short. -/
def listResize (xs : List CValue) (n : Nat) (v : CValue) : List CValue :=
  if n ≤ xs.length then xs.take n else xs ++ List.replicate (n - xs.length) v

/-- The minimum-length padding step of `fill_traces`: when the parsed
column is shorter than the module's minimum length, reverse it, resize
it with the declared padding value (zero when none is declared,
`unwrap_or_default`), and reverse it back; otherwise leave it alone. -/
def padColumn (minLen : Nat) (padding : Option CValue) (xs : List CValue) :
    List CValue :=
  if xs.length < minLen then
    (listResize xs.reverse minLen (padding.getD CValue.zero)).reverse
  else xs

/-- Modelled from the spec (§4.7): `effective_len_or_set` returns the
module's stored length, setting it on first call. -/
def ConstraintSet.effectiveLenOrSet (cs : ConstraintSet) (m : String)
    (len : Int) : ConstraintSet × Int :=
  match alookup cs.effLens m with
  | some l => (cs, l)
  | none => ({ cs with effLens := (m, len) :: cs.effLens }, len)

/-- Modelled from the spec (§4.7): `set_column_value` installs a trace
column (the length check precedes it in `fill_traces`). -/
def ConstraintSet.setColumnValue (cs : ConstraintSet) (h : Handle)
    (xs : List CValue) (spilling : Int) : ConstraintSet :=
  { cs with columnValues := cs.columnValues ++ [(h, xs, spilling)] }

/-- Modelled from the spec (§4.7): `set_register_value`. -/
def ConstraintSet.setRegisterValue (cs : ConstraintSet) (h : Handle)
    (xs : List CValue) (spilling : Int) : ConstraintSet :=
  { cs with registerValues := cs.registerValues ++ [(h, xs, spilling)] }

/-- `Handle::pretty` (the `Pretty` trait lives outside the sources at
hand; modelled from the spec's display form `module.name`). -/
def Handle.pretty (h : Handle) : String := h.display

/-- The length-mismatch message of `fill_traces` (colour codes elided). -/
def lengthMismatchMsg (h : Handle) (expected : Int) (initiator : String)
    (found : Nat) : String :=
  h.display ++ " has an incorrect length: expected " ++ toString expected ++
    " (from " ++ initiator ++ "), found " ++ toString found

/-- The loading of one column array by `fill_traces` (the
`Value::Array` arm), for a declared column: record the initiating
column, require a spilling, parse, pad to the module minimum, fix or
check the module's effective length, and install the values. The
`initiator.as_ref().unwrap()` of the source panics when no `Trace` key
introduced an initiator; the panic is modelled as an error. -/
def loadColumnArray (cs : ConstraintSet) (initiator : Option String)
    (handle : Handle) (module : String) (xs : JList) (t : Ty)
    (padding : Option CValue) (isRegister : Bool) :
    Except String (ConstraintSet × Option String) :=
  let moduleMinLen := (alookup cs.minLen module).getD 0
  let initiator' :=
    if isRegister then initiator
    else match initiator with
      | some s => some (if s = "" then handle.pretty else s)
      | none => none
  match alookup cs.spilling handle with
  | none => .error ("no spilling found for " ++ handle.pretty)
  | some moduleSpilling =>
    match parseColumn xs t with
    | .error e => .error ("while importing " ++ handle.display ++ ": " ++ e)
    | .ok parsed =>
      let padded :=
        padColumn moduleMinLen (if isRegister then none else padding) parsed
      let r := cs.effectiveLenOrSet module (padded.length : Int)
      if (padded.length : Int) ≠ r.2 then
        match initiator' with
        | none => .error "panicked: initiator is None"
        | some s => .error (lengthMismatchMsg handle r.2 s padded.length)
      else if isRegister then
        .ok (r.1.setRegisterValue handle padded moduleSpilling, initiator')
      else
        .ok (r.1.setColumnValue handle padded moduleSpilling, initiator')

mutual
/-- Embedding of `fill_traces` from `src/import.rs`. Objects are walked
key by key: a `Trace` key recurses with a fresh initiator and the same
path, any other key is pushed onto the path. An array whose path holds
at least two components is a column of module `path[len-2]` named
`path[len-1]`: a declared column or register is parsed, padded and
installed (with the module-length check), an unknown one is ignored.
Every other value is skipped. -/
def fillTraces : Json → List String → ConstraintSet → Option String →
    Except String (ConstraintSet × Option String)
  | .obj fields, path, cs, initiator => fillFields fields path cs initiator
  | .arr xs, path, cs, initiator =>
    (match path.reverse with
     | name :: module :: _ =>
       let handle : Handle := ⟨module, name⟩
       (match alookup cs.columns handle with
        | some ci => loadColumnArray cs initiator handle module xs ci.t ci.padding false
        | none =>
          match alookup cs.registers handle with
          | some magma => loadColumnArray cs initiator handle module xs magma none true
          | none => .ok (cs, initiator))
     | _ => .ok (cs, initiator))
  | _, _, cs, initiator => .ok (cs, initiator)

def fillFields : JFields → List String → ConstraintSet → Option String →
    Except String (ConstraintSet × Option String)
  | .nil, _, cs, initiator => .ok (cs, initiator)
  | .cons k v tl, path, cs, initiator =>
    if k = "Trace" then
      match fillTraces v path cs (some "") with
      | .error e => .error e
      | .ok (cs', _) =>
        fillFields tl path cs' initiator
    else
      match fillTraces v (path ++ [k]) cs initiator with
      | .error e => .error e
      | .ok (cs', initiator') => fillFields tl path cs' initiator'
end

/-! ## Claim C1 — the column type order -/

/-- C1 counterexample: the claim says `Void` is strictly below `Boolean`
in `Type::cmp`, but the source compares them `Equal`; consequently the
induced maximum is not even commutative on that pair. -/
theorem c1_cmp_counterexample :
    Ty.cmp Ty.Void Ty.Boolean = Ordering.eq ∧
    Ordering.eq ≠ Ordering.lt ∧
    Ty.max Ty.Void Ty.Boolean ≠ Ty.max Ty.Boolean Ty.Void := by
  decide

/-- C1 (amended): in the comparison `Type::cmp`, `Boolean` is strictly
below `Numeric`, but `Void` compares *equal* to both `Boolean` and
`Numeric`; the comparison is reflexive and agrees with the swap of its
reverse, yet it is neither antisymmetric nor transitive; the maximum it
induces is idempotent but neither commutative nor associative. -/
theorem c1_type_order_amended :
    Ty.cmp Ty.Boolean Ty.Numeric = Ordering.lt ∧
    Ty.cmp Ty.Numeric Ty.Boolean = Ordering.gt ∧
    Ty.cmp Ty.Void Ty.Boolean = Ordering.eq ∧
    Ty.cmp Ty.Void Ty.Numeric = Ordering.eq ∧
    (∀ a : Ty, Ty.cmp a a = Ordering.eq) ∧
    (∀ a b : Ty, Ty.cmp a b = (Ty.cmp b a).swap) ∧
    (∀ a : Ty, Ty.max a a = a) ∧
    ¬ (∀ a b : Ty, Ty.cmp a b ≠ Ordering.gt → Ty.cmp b a ≠ Ordering.gt → a = b) ∧
    ¬ (∀ a b c : Ty, Ty.cmp a b ≠ Ordering.gt → Ty.cmp b c ≠ Ordering.gt →
        Ty.cmp a c ≠ Ordering.gt) ∧
    ¬ (∀ a b : Ty, Ty.max a b = Ty.max b a) ∧
    ¬ (∀ a b c : Ty, Ty.max (Ty.max a b) c = Ty.max a (Ty.max b c)) := by
  decide

/-! ## Claim C7 — arity validation -/

/-- C7: `Arity::validate(l)` succeeds exactly when `l` lies in the
declared set — `Monadic` iff `l = 1`, `Dyadic` iff `l = 2`,
`Exactly n` iff `l = n`, `AtLeast n` iff `n ≤ l`, `Between x y` iff
`x ≤ l ≤ y` — and yields the `make_error` message on every other `l`. -/
theorem c7_arity_validate (a : Arity) (l : Nat) :
    (a.validate l = .ok () ↔
      (match a with
       | .monadic => l = 1
       | .dyadic => l = 2
       | .exactly n => l = n
       | .atLeast n => n ≤ l
       | .between x y => x ≤ l ∧ l ≤ y)) ∧
    (¬ (match a with
        | .monadic => l = 1
        | .dyadic => l = 2
        | .exactly n => l = n
        | .atLeast n => n ≤ l
        | .between x y => x ≤ l ∧ l ≤ y) →
      a.validate l = .error (a.makeError l)) := by
  cases a <;> simp [Arity.validate, Arity.accepts]

/-- C7 witness: three arguments violate a monadic arity and produce the
`make_error` message. -/
theorem c7_arity_validate_witness :
    ¬ (3 = 1) ∧ Arity.validate .monadic 3 = .error (Arity.makeError .monadic 3) :=
  ⟨by decide, (c7_arity_validate .monadic 3).2 (by decide)⟩

/-! ## Claim C8 — handle mangling -/

/-- The ten purification steps of `Handle::purify` amount to one
character-wise pass over the ten-character set. -/
theorem repl_chain (c : Char) :
    repl '.' (repl '%' (repl ':' (repl '/' (repl ']' (repl '['
      (repl '\x7d' (repl '\x7b' (repl ')' (repl '(' c))))))))) =
    (if isPurified c then '_' else c) := by
  by_cases h1 : c = '('
  · subst h1; decide
  by_cases h2 : c = ')'
  · subst h2; decide
  by_cases h3 : c = '\x7b'
  · subst h3; decide
  by_cases h4 : c = '\x7d'
  · subst h4; decide
  by_cases h5 : c = '['
  · subst h5; decide
  by_cases h6 : c = ']'
  · subst h6; decide
  by_cases h7 : c = '/'
  · subst h7; decide
  by_cases h8 : c = ':'
  · subst h8; decide
  by_cases h9 : c = '%'
  · subst h9; decide
  by_cases h10 : c = '.'
  · subst h10; decide
  have hp : ¬ isPurified c := by
    simp [isPurified, h1, h2, h3, h4, h5, h6, h7, h8, h9, h10]
  simp only [repl, if_neg h1, if_neg h2, if_neg h3, if_neg h4, if_neg h5,
    if_neg h6, if_neg h7, if_neg h8, if_neg h9, if_neg h10, if_neg hp]

theorem maps_chain (l : List Char) :
    List.map (repl '.') (List.map (repl '%') (List.map (repl ':')
      (List.map (repl '/') (List.map (repl ']') (List.map (repl '[')
        (List.map (repl '\x7d') (List.map (repl '\x7b')
          (List.map (repl ')') (List.map (repl '(') l))))))))) =
    List.map (fun c => if isPurified c then '_' else c) l := by
  induction l with
  | nil => rfl
  | cons c tl ih => simp only [List.map_cons, ih, repl_chain]

/-- `Handle::purify` equals the single-pass purification. -/
theorem purify_eq_purifyChar (s : String) : Handle.purify s = purifyChar s :=
  congrArg String.mk (maps_chain s.data)

/-- C8 counterexample: the handle with empty module and name `a-b`
mangles to `a-b` — the hyphen, although non-alphanumeric, is kept, and
the `__` separator is dropped with the empty module — while the claim's
reading produces `__a_b`. -/
theorem c8_mangle_counterexample :
    Handle.mangle ⟨"", "a-b"⟩ = "a-b" ∧
    Handle.mangleClaim ⟨"", "a-b"⟩ = "__a_b" ∧
    ("a-b" : String) ≠ "__a_b" := by
  refine ⟨by decide, by decide, by decide⟩

/-- C8 (amended): mangling replaces exactly the characters
`( ) { } [ ] / : % .` occurring in the module and the name by `_`, and
joins the purified module and purified name with `__` when the module
is non-empty (the separator and the module part are omitted when the
module is empty); the display form renders the handle as
`module.name`. -/
theorem c8_mangle_amended (h : Handle) :
    h.mangle = (if h.module = "" then purifyChar h.name
                else purifyChar h.module ++ "__" ++ purifyChar h.name) ∧
    h.display = h.module ++ "." ++ h.name := by
  refine ⟨?_, rfl⟩
  unfold Handle.mangle
  rw [purify_eq_purifyChar, purify_eq_purifyChar]
  by_cases hm : h.module = ""
  · simp only [hm, if_pos rfl]
    show purifyChar "" ++ "" ++ purifyChar h.name = purifyChar h.name
    have : purifyChar "" = "" := rfl
    rw [this]
    exact (String.empty_append _▸ rfl)
  · simp only [if_neg hm]

/-! ## Claim C9 — minimum-length padding -/

/-- C9: the padding step of `fill_traces` prepends the declared padding
value (zero when none is declared) to a column shorter than the
module's minimum length until the length is exactly the minimum, and
leaves a column of at least the minimum length unchanged. -/
theorem c9_min_length_padding (minLen : Nat) (padding : Option CValue)
    (xs : List CValue) :
    padColumn minLen padding xs =
      (if xs.length < minLen then
        List.replicate (minLen - xs.length) (padding.getD CValue.zero) ++ xs
       else xs) ∧
    (padColumn minLen padding xs).length =
      (if xs.length < minLen then minLen else xs.length) := by
  have hmain : padColumn minLen padding xs =
      (if xs.length < minLen then
        List.replicate (minLen - xs.length) (padding.getD CValue.zero) ++ xs
       else xs) := by
    unfold padColumn listResize
    by_cases h : xs.length < minLen
    · simp only [if_pos h, List.length_reverse]
      rw [if_neg (by omega)]
      rw [List.reverse_append, List.reverse_reverse, List.reverse_replicate]
    · simp only [if_neg h]
  refine ⟨hmain, ?_⟩
  rw [hmain]
  by_cases h : xs.length < minLen
  · simp only [if_pos h, List.length_append, List.length_replicate]
    omega
  · simp only [if_neg h]

/-! ## Claim C10 — the prepended zero row -/

def JList.toList : JList → List Json
  | .nil => []
  | .cons h tl => h :: tl.toList

deriving instance DecidableEq for Except

theorem JList.toList_length : (xs : JList) → xs.toList.length = xs.length
  | .nil => rfl
  | .cons h tl => by simp [JList.toList, JList.length, JList.toList_length tl]

theorem parseElems_forall2 (t : Ty) :
    (xs : JList) → (vs : List CValue) → parseElems t xs = .ok vs →
      List.Forall₂ (fun j v => parseOne t j = .ok v) xs.toList vs
  | .nil, vs, h => by
    simp only [parseElems] at h
    cases h
    exact List.Forall₂.nil
  | .cons x tl, vs, h => by
    simp only [parseElems] at h
    cases hx : parseOne t x with
    | error e =>
      cases htl : parseElems t tl with
      | error e2 => rw [hx, htl] at h; cases h
      | ok vs' => rw [hx, htl] at h; cases h
    | ok v =>
      cases htl : parseElems t tl with
      | error e2 => rw [hx, htl] at h; cases h
      | ok vs' =>
        rw [hx, htl] at h
        cases h
        exact List.Forall₂.cons hx (parseElems_forall2 t tl vs' htl)

/-- C10: when every element of a JSON column parses (`parse_column`'s
element map succeeds with values `vs`), `parse_column` returns the list
`zero :: vs`: one longer than the input, with the zero value at index 0
and the parsed values, in their original order (element `i` of the
input parses to element `i` of `vs`), at indices `1..n+1`. -/
theorem c10_parse_column_prepends_zero (t : Ty) (xs : JList) (vs : List CValue)
    (h : parseElems t xs = .ok vs) :
    parseColumn xs t = .ok (CValue.zero :: vs) ∧
    (CValue.zero :: vs).length = xs.length + 1 ∧
    List.Forall₂ (fun j v => parseOne t j = .ok v) xs.toList vs := by
  have h2 := parseElems_forall2 t xs vs h
  refine ⟨?_, ?_, h2⟩
  · simp only [parseColumn, h]
  · have := h2.length_eq
    rw [JList.toList_length] at this
    simp [this]

/-- C10 witness: the column `[5, "7"]` parses to `[0, 5, 7]`. -/
theorem c10_parse_column_witness :
    parseElems Ty.Numeric (.cons (.num "5") (.cons (.str "7") .nil)) =
      .ok [(5 : CValue), (7 : CValue)] ∧
    parseColumn (.cons (.num "5") (.cons (.str "7") .nil)) Ty.Numeric =
      .ok [CValue.zero, (5 : CValue), (7 : CValue)] :=
  ⟨by decide,
   (c10_parse_column_prepends_zero Ty.Numeric _ _ (by decide)).1⟩

/-! ## Claim C6 — unknown trace columns -/

/-- The empty constraint set, for the C6 counterexample: no declared
columns or registers at all. -/
def csEmpty : ConstraintSet :=
  { constraints := [], columns := [], registers := [], computations := [],
    minLen := [], spilling := [], effLens := [], columnValues := [],
    registerValues := [] }

/-- C6 counterexample: a trace with a column `m.x` that is neither a
declared column nor a register loads *successfully* — `fill_traces`
ignores the unknown column (logging only) instead of returning an
error as the claim states. -/
theorem c6_unknown_column_counterexample :
    alookup csEmpty.columns ⟨"m", "x"⟩ = none ∧
    alookup csEmpty.registers ⟨"m", "x"⟩ = none ∧
    fillTraces
      (.obj (.cons "m"
        (.obj (.cons "Trace"
          (.obj (.cons "x" (.arr (.cons (.num "1") .nil)) .nil)) .nil)) .nil))
      [] csEmpty none = .ok (csEmpty, none) :=
  ⟨rfl, rfl, rfl⟩

/-- C6 (amended): a trace column whose `(module, name)` handle is
declared neither as a column nor as a register is silently ignored:
`fill_traces` leaves the constraint set and the initiator untouched and
succeeds. -/
theorem c6_unknown_column_ignored (xs : JList) (p : List String)
    (m name : String) (cs : ConstraintSet) (init : Option String)
    (hcol : alookup cs.columns ⟨m, name⟩ = none)
    (hreg : alookup cs.registers ⟨m, name⟩ = none) :
    fillTraces (.arr xs) (p ++ [m, name]) cs init = .ok (cs, init) := by
  have hrev : (p ++ [m, name]).reverse = name :: m :: p.reverse := by simp
  simp only [fillTraces, hrev, hcol, hreg]

/-- C6 witness: the amended theorem at the concrete unknown column. -/
theorem c6_unknown_column_witness :
    alookup csEmpty.columns ⟨"m", "x"⟩ = none ∧
    alookup csEmpty.registers ⟨"m", "x"⟩ = none ∧
    fillTraces (.arr (.cons (.num "1") .nil)) (["a"] ++ ["m", "x"])
      csEmpty none = .ok (csEmpty, none) :=
  ⟨rfl, rfl,
   c6_unknown_column_ignored (.cons (.num "1") .nil) ["a"] "m" "x" csEmpty
     none rfl rfl⟩

/-! ## Claim C5 — module length coherence -/

/-- C5: inside a `Trace` (initiator present), loading a declared column
whose module already has an effective length `L` fails with the
length-mismatch error when the padded column's length differs from `L`
and installs the column when it matches; when the module has no
effective length yet (this is its first column), the column's length
becomes the module's effective length. -/
theorem c5_module_length_coherence (xs : JList) (p : List String)
    (m name : String) (cs : ConstraintSet) (s : String) (ci : ColumnInfo)
    (sp : Int) (v0 v : List CValue)
    (hcol : alookup cs.columns ⟨m, name⟩ = some ci)
    (hsp : alookup cs.spilling ⟨m, name⟩ = some sp)
    (hparse : parseColumn xs ci.t = .ok v0)
    (hv : v = padColumn ((alookup cs.minLen m).getD 0) ci.padding v0) :
    (∀ L, alookup cs.effLens m = some L → (v.length : Int) ≠ L →
      fillTraces (.arr xs) (p ++ [m, name]) cs (some s) =
        .error (lengthMismatchMsg ⟨m, name⟩ L
          (if s = "" then Handle.pretty ⟨m, name⟩ else s) v.length)) ∧
    (∀ L, alookup cs.effLens m = some L → (v.length : Int) = L →
      fillTraces (.arr xs) (p ++ [m, name]) cs (some s) =
        .ok (cs.setColumnValue ⟨m, name⟩ v sp,
             some (if s = "" then Handle.pretty ⟨m, name⟩ else s))) ∧
    (alookup cs.effLens m = none →
      fillTraces (.arr xs) (p ++ [m, name]) cs (some s) =
        .ok (({ cs with effLens := (m, (v.length : Int)) :: cs.effLens
              } : ConstraintSet).setColumnValue ⟨m, name⟩ v sp,
             some (if s = "" then Handle.pretty ⟨m, name⟩ else s))) := by
  have hrev : (p ++ [m, name]).reverse = name :: m :: p.reverse := by simp
  subst hv
  refine ⟨?_, ?_, ?_⟩
  · intro L hL hne
    simp only [fillTraces, hrev, hcol, loadColumnArray, hsp, hparse,
      ConstraintSet.effectiveLenOrSet, hL]
    simp [hne]
  · intro L hL heq
    simp only [fillTraces, hrev, hcol, loadColumnArray, hsp, hparse,
      ConstraintSet.effectiveLenOrSet, hL]
    simp [heq]
  · intro hnone
    simp only [fillTraces, hrev, hcol, loadColumnArray, hsp, hparse,
      ConstraintSet.effectiveLenOrSet, hnone]
    simp

/-- A one-column constraint set for the C5 witness: column `m.x` is
declared numeric with spilling `0`, and module `m` already has
effective length `2`. -/
def csLen : ConstraintSet :=
  { constraints := [], columns := [(⟨"m", "x"⟩, ⟨Ty.Numeric, none, Kind.atomic⟩)],
    registers := [], computations := [], minLen := [],
    spilling := [(⟨"m", "x"⟩, 0)], effLens := [("m", 2)],
    columnValues := [], registerValues := [] }

/-- C5 witness: in `csLen`, the column `m.x = [7]` parses to `[0, 7]`
of length 2, matching the module's effective length, and is installed;
the same theorem also certifies the mismatch error for `m.x = [7, 8]`
(length 3 ≠ 2). -/
theorem c5_module_length_witness :
    alookup csLen.columns ⟨"m", "x"⟩ = some ⟨Ty.Numeric, none, Kind.atomic⟩ ∧
    alookup csLen.spilling ⟨"m", "x"⟩ = some 0 ∧
    parseColumn (.cons (.num "7") .nil) Ty.Numeric = .ok [CValue.zero, 7] ∧
    alookup csLen.effLens "m" = some 2 ∧
    fillTraces (.arr (.cons (.num "7") .nil)) ([] ++ ["m", "x"]) csLen
        (some "") =
      .ok (csLen.setColumnValue ⟨"m", "x"⟩ [CValue.zero, 7] 0,
           some (Handle.pretty ⟨"m", "x"⟩)) ∧
    fillTraces (.arr (.cons (.num "7") (.cons (.num "8") .nil)))
        ([] ++ ["m", "x"]) csLen (some "") =
      .error (lengthMismatchMsg ⟨"m", "x"⟩ 2 (Handle.pretty ⟨"m", "x"⟩) 3) := by
  refine ⟨rfl, rfl, by decide, rfl, ?_, ?_⟩
  · have h := (c5_module_length_coherence (.cons (.num "7") .nil) []
      "m" "x" csLen "" ⟨Ty.Numeric, none, Kind.atomic⟩ 0 [CValue.zero, 7]
      [CValue.zero, 7] rfl rfl (by decide) rfl).2.1 2 rfl (by decide)
    simpa using h
  · have h := (c5_module_length_coherence
      (.cons (.num "7") (.cons (.num "8") .nil)) [] "m" "x" csLen ""
      ⟨Ty.Numeric, none, Kind.atomic⟩ 0 [CValue.zero, 7, 8]
      [CValue.zero, 7, 8] rfl rfl (by decide) rfl).1 2 rfl (by decide)
    simpa using h

/-! ## Claims C2/C3/C4 — the inverse pass: predicates and lemmas -/

mutual
/-- No `Normalize` call occurs anywhere in the node. -/
def Node.normFree : Node → Bool
  | .const _ _ => true
  | .column _ _ _ => true
  | .void => true
  | .funcall f args _ =>
      (decide (f ≠ Intrinsic.normalize)) && args.normFreeList
  | .list args _ => args.normFreeList

def NodeList.normFreeList : NodeList → Bool
  | .nil => true
  | .cons h tl => h.normFree && tl.normFreeList
end

mutual
/-- No subtree of the node is constant-evaluable (`pure_eval` fails
everywhere in it). -/
def Node.pureFree : Node → Bool
  | .const _ _ => false
  | .column _ _ _ => true
  | .void => true
  | .funcall f args t =>
      (Node.pureEval (.funcall f args t)).isNone && args.pureFreeList
  | .list args _ => args.pureFreeList

def NodeList.pureFreeList : NodeList → Bool
  | .nil => true
  | .cons h tl => h.pureFree && tl.pureFreeList
end

mutual
/-- Well-formed arities: every `Normalize` call in the node has exactly
one argument (the source asserts this). -/
def Node.wfNorm : Node → Bool
  | .const _ _ => true
  | .column _ _ _ => true
  | .void => true
  | .funcall f args _ =>
      (decide (f = Intrinsic.normalize) → args.length = 1 : Bool) &&
        args.wfNormList
  | .list args _ => args.wfNormList

def NodeList.wfNormList : NodeList → Bool
  | .nil => true
  | .cons h tl => h.wfNorm && tl.wfNormList
end

mutual
/-- A node with no `Normalize` call and no constant-evaluable subtree
is left untouched by `do_normalize`, and nothing is pushed. -/
theorem doNormalize_id (gm : List ColumnRef → String) :
    (e : Node) → (cols : List (Handle × Node)) →
      e.normFree = true → e.pureFree = true →
      e.doNormalize gm cols = (e, cols)
  | .const v t, cols, _, hpf => by simp [Node.pureFree] at hpf
  | .column r k t, cols, _, _ => by simp [Node.doNormalize, Node.pureEval]
  | .void, cols, _, _ => by simp [Node.doNormalize, Node.pureEval]
  | .funcall f args t, cols, hnf, hpf => by
    simp only [Node.normFree, Bool.and_eq_true, decide_eq_true_eq] at hnf
    simp only [Node.pureFree, Bool.and_eq_true, Option.isNone_iff_eq_none] at hpf
    have hargs := doNormalizeList_id gm args cols hnf.2 hpf.2
    simp [Node.doNormalize, hpf.1, hargs, hnf.1]
  | .list args t, cols, hnf, hpf => by
    simp only [Node.normFree] at hnf
    simp only [Node.pureFree] at hpf
    have hargs := doNormalizeList_id gm args cols hnf hpf
    simp [Node.doNormalize, Node.pureEval, hargs]

theorem doNormalizeList_id (gm : List ColumnRef → String) :
    (l : NodeList) → (cols : List (Handle × Node)) →
      l.normFreeList = true → l.pureFreeList = true →
      NodeList.doNormalizeList gm l cols = (l, cols)
  | .nil, cols, _, _ => rfl
  | .cons h tl, cols, hnf, hpf => by
    simp only [NodeList.normFreeList, Bool.and_eq_true] at hnf
    simp only [NodeList.pureFreeList, Bool.and_eq_true] at hpf
    have hh := doNormalize_id gm h cols hnf.1 hpf.1
    have htl := doNormalizeList_id gm tl cols hnf.2 hpf.2
    simp [NodeList.doNormalizeList, hh, htl]
end

mutual
/-- `do_normalize` preserves the number of arguments of a list. -/
theorem doNormalizeList_length (gm : List ColumnRef → String) :
    (l : NodeList) → (cols : List (Handle × Node)) →
      (NodeList.doNormalizeList gm l cols).1.length = l.length
  | .nil, cols => rfl
  | .cons h tl, cols => by
    simp [NodeList.doNormalizeList, NodeList.length,
      doNormalizeList_length gm tl (h.doNormalize gm cols).2]
end

mutual
/-- On a node whose `Normalize` calls are all unary, `do_normalize`
erases every `Normalize` call. -/
theorem doNormalize_normFree (gm : List ColumnRef → String) :
    (e : Node) → (cols : List (Handle × Node)) → e.wfNorm = true →
      (e.doNormalize gm cols).1.normFree = true
  | .const v t, cols, _ => by
    simp [Node.doNormalize, Node.pureEval, Node.fromValue, Node.normFree]
  | .column r k t, cols, _ => by
    simp [Node.doNormalize, Node.pureEval, Node.normFree]
  | .void, cols, _ => by
    simp [Node.doNormalize, Node.pureEval, Node.normFree]
  | .funcall f args t, cols, hwf => by
    simp only [Node.wfNorm, Bool.and_eq_true] at hwf
    have hargs := doNormalizeList_normFree gm args cols hwf.2
    have hlen := doNormalizeList_length gm args cols
    cases hpe : Node.pureEval (.funcall f args t) with
    | some x =>
      simp [Node.doNormalize, hpe, Node.fromValue, Node.normFree]
    | none =>
      by_cases hf : f = Intrinsic.normalize
      · subst hf
        have h1 : args.length = 1 := by
          have := hwf.1
          simp only [decide_eq_true_eq] at this
          exact of_decide_eq_true (by
            revert this
            cases hd : decide (Intrinsic.normalize = Intrinsic.normalize) <;>
              simp_all)
        rw [h1] at hlen
        cases hres : (NodeList.doNormalizeList gm args cols).1 with
        | nil => rw [hres] at hlen; cases hlen
        | cons arg tl =>
          cases tl with
          | cons h2 t2 =>
            rw [hres] at hlen
            simp [NodeList.length] at hlen
          | nil =>
            rw [hres] at hargs
            simp only [NodeList.normFreeList, Bool.and_eq_true] at hargs
            by_cases hb : arg.t.isBinary = true
            · simp [Node.doNormalize, hpe, hres, hb, hargs.1]
            · simp only [Bool.not_eq_true] at hb
              simp [Node.doNormalize, hpe, hres, hb, Intrinsic.call,
                Node.normFree, NodeList.normFreeList, hargs.1]
      · simp [Node.doNormalize, hpe, hf, Node.normFree, hargs]
  | .list args t, cols, hwf => by
    simp only [Node.wfNorm] at hwf
    have hargs := doNormalizeList_normFree gm args cols hwf
    simp [Node.doNormalize, Node.pureEval, Node.normFree, hargs]

theorem doNormalizeList_normFree (gm : List ColumnRef → String) :
    (l : NodeList) → (cols : List (Handle × Node)) → l.wfNormList = true →
      (NodeList.doNormalizeList gm l cols).1.normFreeList = true
  | .nil, cols, _ => rfl
  | .cons h tl, cols, hwf => by
    simp only [NodeList.wfNormList, Bool.and_eq_true] at hwf
    have hh := doNormalize_normFree gm h cols hwf.1
    have htl := doNormalizeList_normFree gm tl (h.doNormalize gm cols).2 hwf.2
    simp [NodeList.doNormalizeList, NodeList.normFreeList, hh, htl]
end

mutual
/-- On a `Normalize`-free node, `do_normalize` pushes nothing onto
`new_cols`. -/
theorem doNormalize_noPush (gm : List ColumnRef → String) :
    (e : Node) → (cols : List (Handle × Node)) → e.normFree = true →
      (e.doNormalize gm cols).2 = cols
  | .const v t, cols, _ => by simp [Node.doNormalize, Node.pureEval]
  | .column r k t, cols, _ => by simp [Node.doNormalize, Node.pureEval]
  | .void, cols, _ => by simp [Node.doNormalize, Node.pureEval]
  | .funcall f args t, cols, hnf => by
    simp only [Node.normFree, Bool.and_eq_true, decide_eq_true_eq] at hnf
    have hargs := doNormalizeList_noPush gm args cols hnf.2
    cases hpe : Node.pureEval (.funcall f args t) with
    | some x => simp [Node.doNormalize, hpe]
    | none => simp [Node.doNormalize, hpe, hnf.1, hargs]
  | .list args t, cols, hnf => by
    simp only [Node.normFree] at hnf
    have hargs := doNormalizeList_noPush gm args cols hnf
    simp [Node.doNormalize, Node.pureEval, hargs]

theorem doNormalizeList_noPush (gm : List ColumnRef → String) :
    (l : NodeList) → (cols : List (Handle × Node)) →
      l.normFreeList = true →
      (NodeList.doNormalizeList gm l cols).2 = cols
  | .nil, cols, _ => rfl
  | .cons h tl, cols, hnf => by
    simp only [NodeList.normFreeList, Bool.and_eq_true] at hnf
    have hh := doNormalize_noPush gm h cols hnf.1
    have htl := doNormalizeList_noPush gm tl (h.doNormalize gm cols).2 hnf.2
    rw [hh] at htl
    simp [NodeList.doNormalizeList, hh, htl]
end

def Constraint.isVanishes : Constraint → Bool
  | .vanishes _ _ _ => true
  | _ => false

def Constraint.isNormConstraint : Constraint → Bool
  | .normalization _ _ _ => true
  | _ => false

/-- A constraint the pass cannot touch: a `Vanishes` whose expression
has no `Normalize` call and no constant-evaluable subtree, or any
non-`Vanishes` constraint. -/
def Constraint.inert : Constraint → Bool
  | .vanishes _ _ e => e.normFree && e.pureFree
  | _ => true

/-- Well-formed constraint: `Normalize` calls in a `Vanishes`
expression are unary. -/
def Constraint.wf : Constraint → Bool
  | .vanishes _ _ e => e.wfNorm
  | _ => true

/-- The `Vanishes` expression (if any) contains no `Normalize` call. -/
def Constraint.normFreeC : Constraint → Bool
  | .vanishes _ _ e => e.normFree
  | _ => true

/-- A subtree with no constant-evaluable part does not itself
evaluate. -/
theorem pureFree_pureEval (e : Node) (h : e.pureFree = true) :
    e.pureEval = none := by
  cases e with
  | const v t => simp [Node.pureFree] at h
  | column r k t => rfl
  | void => rfl
  | funcall f args t =>
    simp only [Node.pureFree, Bool.and_eq_true, Option.isNone_iff_eq_none] at h
    exact h.1
  | list args t => rfl

/-- The constraint loop is the identity on inert constraints. -/
theorem normalizeConstraints_inert (gm : List ColumnRef → String)
    (l : List Constraint) (cols : List (Handle × Node))
    (h : ∀ c ∈ l, c.inert = true) :
    normalizeConstraints gm l cols = (l, cols) := by
  induction l generalizing cols with
  | nil => rfl
  | cons c rest ih =>
    have hc := h c (List.mem_cons_self c rest)
    have hrest := fun c hc => h c (List.mem_cons_of_mem _ hc)
    cases c with
    | vanishes ch d e =>
      simp only [Constraint.inert, Bool.and_eq_true] at hc
      have he := doNormalize_id gm e cols hc.1 hc.2
      simp [normalizeConstraints, he, ih cols hrest]
    | inRange ch e mx => simp [normalizeConstraints, ih cols hrest]
    | plookup ch a b => simp [normalizeConstraints, ih cols hrest]
    | permutation ch a b => simp [normalizeConstraints, ih cols hrest]
    | normalization ch r i => simp [normalizeConstraints, ih cols hrest]

/-- The constraint loop pushes nothing when every `Vanishes` expression
is already `Normalize`-free. -/
theorem normalizeConstraints_noPush (gm : List ColumnRef → String)
    (l : List Constraint) (cols : List (Handle × Node))
    (h : ∀ c ∈ l, c.normFreeC = true) :
    (normalizeConstraints gm l cols).2 = cols := by
  induction l generalizing cols with
  | nil => rfl
  | cons c rest ih =>
    have hc := h c (List.mem_cons_self c rest)
    have hrest := fun c hc => h c (List.mem_cons_of_mem _ hc)
    cases c with
    | vanishes ch d e =>
      simp only [Constraint.normFreeC] at hc
      have he := doNormalize_noPush gm e cols hc
      simp [normalizeConstraints, he, ih cols hrest]
    | inRange ch e mx => simp [normalizeConstraints, ih cols hrest]
    | plookup ch a b => simp [normalizeConstraints, ih cols hrest]
    | permutation ch a b => simp [normalizeConstraints, ih cols hrest]
    | normalization ch r i => simp [normalizeConstraints, ih cols hrest]

/-- The constraint loop preserves the number of constraints. -/
theorem normalizeConstraints_length (gm : List ColumnRef → String)
    (l : List Constraint) (cols : List (Handle × Node)) :
    (normalizeConstraints gm l cols).1.length = l.length := by
  induction l generalizing cols with
  | nil => rfl
  | cons c rest ih =>
    cases c with
    | vanishes ch d e => simp [normalizeConstraints, ih]
    | inRange ch e mx => simp [normalizeConstraints, ih]
    | plookup ch a b => simp [normalizeConstraints, ih]
    | permutation ch a b => simp [normalizeConstraints, ih]
    | normalization ch r i => simp [normalizeConstraints, ih]

/-- After the constraint loop on well-formed constraints, every
`Vanishes` expression is `Normalize`-free. -/
theorem normalizeConstraints_normFree (gm : List ColumnRef → String)
    (l : List Constraint) (cols : List (Handle × Node))
    (h : ∀ c ∈ l, c.wf = true) :
    ∀ c ∈ (normalizeConstraints gm l cols).1, c.normFreeC = true := by
  induction l generalizing cols with
  | nil => intro c hc; cases hc
  | cons c rest ih =>
    have hc := h c (List.mem_cons_self c rest)
    have hrest := fun c hc => h c (List.mem_cons_of_mem _ hc)
    intro c' hc'
    cases c with
    | vanishes ch d e =>
      simp only [normalizeConstraints, List.mem_cons] at hc'
      rcases hc' with hc' | hc'
      · subst hc'
        simp only [Constraint.normFreeC]
        exact doNormalize_normFree gm e cols (by simpa [Constraint.wf] using hc)
      · exact ih _ hrest c' hc'
    | inRange ch e mx =>
      simp only [normalizeConstraints, List.mem_cons] at hc'
      rcases hc' with hc' | hc'
      · subst hc'; rfl
      · exact ih _ hrest c' hc'
    | plookup ch a b =>
      simp only [normalizeConstraints, List.mem_cons] at hc'
      rcases hc' with hc' | hc'
      · subst hc'; rfl
      · exact ih _ hrest c' hc'
    | permutation ch a b =>
      simp only [normalizeConstraints, List.mem_cons] at hc'
      rcases hc' with hc' | hc'
      · subst hc'; rfl
      · exact ih _ hrest c' hc'
    | normalization ch r i =>
      simp only [normalizeConstraints, List.mem_cons] at hc'
      rcases hc' with hc' | hc'
      · subst hc'; rfl
      · exact ih _ hrest c' hc'

/-- A non-`Vanishes` constraint passes through the loop unchanged, in
place. -/
theorem normalizeConstraints_rel (gm : List ColumnRef → String)
    (l : List Constraint) (cols : List (Handle × Node)) :
    List.Forall₂ (fun old new => old.isVanishes = false → new = old) l
      (normalizeConstraints gm l cols).1 := by
  induction l generalizing cols with
  | nil => exact List.Forall₂.nil
  | cons c rest ih =>
    cases c with
    | vanishes ch d e =>
      simp only [normalizeConstraints]
      exact List.Forall₂.cons (by simp [Constraint.isVanishes]) (ih _)
    | inRange ch e mx =>
      exact List.Forall₂.cons (fun _ => rfl) (ih _)
    | plookup ch a b =>
      exact List.Forall₂.cons (fun _ => rfl) (ih _)
    | permutation ch a b =>
      exact List.Forall₂.cons (fun _ => rfl) (ih _)
    | normalization ch r i =>
      exact List.Forall₂.cons (fun _ => rfl) (ih _)

/-- The insertion loop only ever *appends*: new `Normalization`
constraints after the existing constraints, new columns and
computations after the existing ones; every other field of the
constraint set is untouched. -/
theorem insertNewCols_structure (l : List (Handle × Node)) :
    ∀ (cs cs' : ConstraintSet), insertNewCols cs l = .ok cs' →
    ∃ tail newcols newcomps,
      cs'.constraints = cs.constraints ++ tail ∧
      (∀ c ∈ tail, c.isNormConstraint = true) ∧
      cs'.columns = cs.columns ++ newcols ∧
      cs'.computations = cs.computations ++ newcomps ∧
      cs'.registers = cs.registers ∧
      cs'.minLen = cs.minLen ∧
      cs'.spilling = cs.spilling ∧
      cs'.effLens = cs.effLens ∧
      cs'.columnValues = cs.columnValues ∧
      cs'.registerValues = cs.registerValues := by
  induction l with
  | nil =>
    intro cs cs' h
    simp only [insertNewCols] at h
    cases h
    exact ⟨[], [], [], by simp, by simp, by simp, by simp, rfl, rfl, rfl, rfl,
      rfl, rfl⟩
  | cons p rest ih =>
    intro cs cs' h
    obtain ⟨h0, e0⟩ := p
    simp only [insertNewCols] at h
    by_cases hcol : (alookup cs.columns h0).isSome
    · rw [if_pos hcol] at h
      exact ih cs cs' h
    · rw [if_neg hcol] at h
      by_cases hcomp : (alookup cs.computations h0).isSome
      · rw [if_pos hcomp] at h
        cases h
      · rw [if_neg hcomp] at h
        obtain ⟨tail, newcols, newcomps, h1, h2, h3, h4, h5, h6, h7, h8, h9,
          h10⟩ := ih _ cs' h
        refine ⟨Constraint.normalization
            (Handle.mk h0.module ("NORM[" ++ e0.key ++ "]")) e0 h0 :: tail,
          (h0, newComputedColumn) :: newcols,
          (h0, Computation'.composite h0 (invertExpr e0)) :: newcomps,
          ?_, ?_, ?_, ?_, by simpa using h5, by simpa using h6,
          by simpa using h7, by simpa using h8, by simpa using h9,
          by simpa using h10⟩
        · simpa [List.append_assoc] using h1
        · intro c hc
          rcases List.mem_cons.mp hc with hc | hc
          · subst hc; rfl
          · exact h2 c hc
        · simpa [List.append_assoc] using h3
        · simpa [List.append_assoc] using h4

/-! ## Claim C4 — the pass rewrites only what it must -/

/-- The constraint set whose only constraint is `Vanishes(2)`: its
expression contains no `Normalize` node, yet the pass rewrites it. -/
def csConst2 : ConstraintSet :=
  { csEmpty with
    constraints := [.vanishes ⟨"m", "c"⟩ none (.const 2 Ty.Numeric)] }

/-- C4 counterexample: the `Vanishes` expression `Const 2` contains no
`Normalize` node, yet `expand_normalizations` replaces it by the
*inverse* of its value, `Const 2⁻¹` — the pass also rewrites
constant-evaluable subtrees, not only `Normalize` nodes. -/
theorem c4_only_normalize_counterexample :
    csConst2.expandNormalizations = .ok
      { csEmpty with
        constraints :=
          [.vanishes ⟨"m", "c"⟩ none (.const ((2 : CValue)⁻¹) Ty.Numeric)] } ∧
    Node.const ((2 : CValue)⁻¹) Ty.Numeric ≠ Node.const 2 Ty.Numeric := by
  have hfv : Node.fromValue ((2 : CValue)⁻¹) =
      .const ((2 : CValue)⁻¹) Ty.Numeric := by
    simp only [Node.fromValue]
    rw [if_neg (by norm_num)]
  constructor
  · have h1 : (Node.const 2 Ty.Numeric).doNormalize
        (fun refs => (moduleFor refs).getD "") [] =
        (Node.fromValue ((2 : CValue)⁻¹), []) := rfl
    simp only [ConstraintSet.expandNormalizations, csConst2, normalizeConstraints,
      h1, hfv, insertNewCols]
  · intro hc
    have hv : ((2 : CValue)⁻¹ : ℚ) = 2 := by injection hc
    norm_num at hv

/-- C4 (amended): the pass rewrites only `Normalize` nodes and
constant-evaluable subtrees (the latter are replaced by the inverses of
their values): a constraint set whose `Vanishes` expressions contain
neither is returned entirely unchanged, and in general every
non-`Vanishes` constraint passes through unchanged, the pass only
appending new `Normalization` constraints. -/
theorem c4_only_normalize_amended :
    (∀ cs : ConstraintSet, (∀ c ∈ cs.constraints, c.inert = true) →
      cs.expandNormalizations = .ok cs) ∧
    (∀ cs cs' : ConstraintSet, cs.expandNormalizations = .ok cs' →
      ∃ pre tail, cs'.constraints = pre ++ tail ∧
        List.Forall₂ (fun old new => old.isVanishes = false → new = old)
          cs.constraints pre ∧
        ∀ c ∈ tail, c.isNormConstraint = true) := by
  constructor
  · intro cs h
    simp only [ConstraintSet.expandNormalizations]
    rw [normalizeConstraints_inert _ _ _ h]
    rfl
  · intro cs cs' h
    simp only [ConstraintSet.expandNormalizations] at h
    obtain ⟨tail, nc, np, h1, h2, _⟩ := insertNewCols_structure _ _ _ h
    exact ⟨_, tail, by simpa using h1, normalizeConstraints_rel _ _ _, h2⟩

/-- An inert constraint set for the C4 witness: one `Vanishes` over a
bare column (nothing to rewrite) and one `InRange`. -/
def csInert : ConstraintSet :=
  { csEmpty with
    constraints :=
      [.vanishes ⟨"m", "c"⟩ none (.column ⟨"m", "x"⟩ Kind.atomic Ty.Numeric),
       .inRange ⟨"m", "r"⟩ (.column ⟨"m", "x"⟩ Kind.atomic Ty.Numeric) 255],
    columns := [(⟨"m", "x"⟩, ⟨Ty.Numeric, none, Kind.atomic⟩)] }

/-- C4 witness: the pass is the identity on `csInert`. -/
theorem c4_only_normalize_witness :
    (∀ c ∈ csInert.constraints, c.inert = true) ∧
    csInert.expandNormalizations = .ok csInert :=
  ⟨by decide, c4_only_normalize_amended.1 csInert (by decide)⟩

/-! ## Claim C3 — idempotence of the pass -/

/-- C3 counterexample: on the constraint set whose only `Vanishes`
expression is `Const 2`, a first run rewrites the expression to
`Const 2⁻¹` and a second run rewrites it *back* to `Const 2`: the
second run does not leave the constraint expressions unchanged. -/
theorem c3_idempotence_counterexample :
    csConst2.expandNormalizations = .ok
      { csEmpty with
        constraints :=
          [.vanishes ⟨"m", "c"⟩ none (.const ((2 : CValue)⁻¹) Ty.Numeric)] } ∧
    ConstraintSet.expandNormalizations
      { csEmpty with
        constraints :=
          [.vanishes ⟨"m", "c"⟩ none (.const ((2 : CValue)⁻¹) Ty.Numeric)] } =
      .ok csConst2 ∧
    csConst2.constraints ≠
      [.vanishes ⟨"m", "c"⟩ none (.const ((2 : CValue)⁻¹) Ty.Numeric)] := by
  have hfv : Node.fromValue ((2 : CValue)⁻¹) =
      .const ((2 : CValue)⁻¹) Ty.Numeric := by
    simp only [Node.fromValue]
    rw [if_neg (by norm_num)]
  have hfv2 : Node.fromValue (((2 : CValue)⁻¹)⁻¹) = .const 2 Ty.Numeric := by
    have hin : (((2 : CValue)⁻¹)⁻¹ : ℚ) = 2 := by norm_num
    rw [hin]
    simp only [Node.fromValue]
    rw [if_neg (by norm_num)]
  refine ⟨?_, ?_, ?_⟩
  · have h1 : (Node.const 2 Ty.Numeric).doNormalize
        (fun refs => (moduleFor refs).getD "") [] =
        (Node.fromValue ((2 : CValue)⁻¹), []) := rfl
    simp only [ConstraintSet.expandNormalizations, csConst2,
      normalizeConstraints, h1, hfv, insertNewCols]
  · have h2 : (Node.const ((2 : CValue)⁻¹) Ty.Numeric).doNormalize
        (fun refs => (moduleFor refs).getD "") [] =
        (Node.fromValue (((2 : CValue)⁻¹)⁻¹), []) := rfl
    simp only [ConstraintSet.expandNormalizations, normalizeConstraints, h2,
      hfv2, insertNewCols, csConst2]
  · intro hc
    simp only [csConst2, List.cons.injEq] at hc
    have hv : (2 : CValue) = ((2 : CValue)⁻¹ : ℚ) := by
      have := hc.1
      injection this with ha hb hcn
      injection hcn
    norm_num at hv

/-- A `Normalization` constraint has no `Vanishes` expression. -/
theorem isNormConstraint_normFreeC (c : Constraint)
    (h : c.isNormConstraint = true) : c.normFreeC = true := by
  cases c <;> simp_all [Constraint.isNormConstraint, Constraint.normFreeC]

/-- C3 (amended): after a successful run of the pass on well-formed
constraints, a second run succeeds and creates no new columns, no new
computations and no new constraints (every `Normalize` node was already
eliminated); the constraint *expressions*, however, are only guaranteed
unchanged when they contain no constant-evaluable subtree — such
subtrees are re-replaced by the inverses of their values on every
run. -/
theorem c3_idempotence_amended (cs cs₁ : ConstraintSet)
    (hwf : ∀ c ∈ cs.constraints, c.wf = true)
    (h : cs.expandNormalizations = .ok cs₁) :
    ∃ cs₂, cs₁.expandNormalizations = .ok cs₂ ∧
      cs₂.columns = cs₁.columns ∧
      cs₂.computations = cs₁.computations ∧
      cs₂.registers = cs₁.registers ∧
      cs₂.constraints.length = cs₁.constraints.length ∧
      ((∀ c ∈ cs₁.constraints, c.inert = true) → cs₂ = cs₁) := by
  have hnf : ∀ c ∈ cs₁.constraints, c.normFreeC = true := by
    simp only [ConstraintSet.expandNormalizations] at h
    obtain ⟨tail, nc, np, h1, h2, _⟩ := insertNewCols_structure _ _ _ h
    intro c hc
    rw [h1] at hc
    rcases List.mem_append.mp hc with hc | hc
    · exact normalizeConstraints_normFree _ _ _ hwf c (by simpa using hc)
    · exact isNormConstraint_normFreeC c (h2 c hc)
  have hpush := normalizeConstraints_noPush
    (fun refs => (moduleFor refs).getD "") cs₁.constraints [] hnf
  refine ⟨{ cs₁ with constraints :=
      (normalizeConstraints (fun refs => (moduleFor refs).getD "")
        cs₁.constraints []).1 }, ?_, rfl, rfl, rfl,
    normalizeConstraints_length _ _ _, ?_⟩
  · simp only [ConstraintSet.expandNormalizations, hpush]
    rfl
  · intro hinert
    rw [normalizeConstraints_inert _ _ _ hinert]

/-- C3 witness: the pass maps `csInert` to itself, and the second run
is again the identity. -/
theorem c3_idempotence_witness :
    (∀ c ∈ csInert.constraints, c.wf = true) ∧
    csInert.expandNormalizations = .ok csInert ∧
    ∃ cs₂, csInert.expandNormalizations = .ok cs₂ ∧
      cs₂.columns = csInert.columns ∧
      cs₂.computations = csInert.computations ∧
      cs₂.registers = csInert.registers ∧
      cs₂.constraints.length = csInert.constraints.length ∧
      ((∀ c ∈ csInert.constraints, c.inert = true) → cs₂ = csInert) :=
  ⟨by decide, by rfl,
   c3_idempotence_amended csInert csInert (by decide) (by rfl)⟩

/-! ## Claim C2 — the `Normalize` rewrite -/

/-- The constraint set whose only constraint is
`Vanishes(Normalize(2))`: its `Normalize` argument is constant. -/
def csNormConst : ConstraintSet :=
  { csEmpty with
    constraints :=
      [.vanishes ⟨"m", "c"⟩ none
        (.funcall .normalize (.cons (.const 2 Ty.Numeric) .nil) Ty.Numeric)] }

/-- C2 counterexample: `Normalize(2)` sits in a `Vanishes` constraint
and its argument's type is `Numeric`, not `Boolean`, so the claim
demands a `Mul(e, c)` rewrite together with a new `Normalization`
constraint and a `Composite` computation; instead the pass
constant-evaluates the node (`normalize 2 = 1`, then the inverse `1`)
and adds no constraint, no column and no computation. -/
theorem c2_normalize_counterexample :
    (Node.const 2 Ty.Numeric).t ≠ Ty.Boolean ∧
    csNormConst.expandNormalizations = .ok
      { csEmpty with
        constraints := [.vanishes ⟨"m", "c"⟩ none (.const 1 Ty.Boolean)] } ∧
    ({ csEmpty with
        constraints := [.vanishes ⟨"m", "c"⟩ none (.const 1 Ty.Boolean)]
      } : ConstraintSet).constraints.length = 1 ∧
    ({ csEmpty with
        constraints := [.vanishes ⟨"m", "c"⟩ none (.const 1 Ty.Boolean)]
      } : ConstraintSet).columns = [] ∧
    ({ csEmpty with
        constraints := [.vanishes ⟨"m", "c"⟩ none (.const 1 Ty.Boolean)]
      } : ConstraintSet).computations = [] := by
  refine ⟨by decide, ?_, rfl, rfl, rfl⟩
  have hev : Node.pureEval
      (.funcall .normalize (.cons (.const 2 Ty.Numeric) .nil) Ty.Numeric) =
      some 1 := by
    simp only [Node.pureEval, NodeList.pureEvalList, Intrinsic.evalConst]
    rw [if_neg (by norm_num)]
  have h1 : (Node.funcall .normalize (.cons (.const 2 Ty.Numeric) .nil)
        Ty.Numeric).doNormalize (fun refs => (moduleFor refs).getD "") [] =
      (Node.fromValue ((1 : CValue)⁻¹), []) := by
    simp [Node.doNormalize, hev, CValue.inverse]
  have hfv : Node.fromValue ((1 : CValue)⁻¹) = .const 1 Ty.Boolean := by
    rw [inv_one]
    simp [Node.fromValue]
  simp only [ConstraintSet.expandNormalizations, csNormConst,
    normalizeConstraints, h1, hfv, insertNewCols]

/-- The constraint set for the C2 witness: `Vanishes(Normalize(x))`
over the declared numeric column `m.x`. -/
def csNormCol : ConstraintSet :=
  { csEmpty with
    constraints :=
      [.vanishes ⟨"m", "c"⟩ none
        (.funcall .normalize
          (.cons (.column ⟨"m", "x"⟩ Kind.atomic Ty.Numeric) .nil)
          Ty.Numeric)],
    columns := [(⟨"m", "x"⟩, ⟨Ty.Numeric, none, Kind.atomic⟩)] }

/-- Lookup distributes over append: the left list wins. -/
theorem alookup_append {α β : Type} [DecidableEq α] (l₁ l₂ : List (α × β))
    (a : α) :
    alookup (l₁ ++ l₂) a =
      (match alookup l₁ a with
       | some b => some b
       | none => alookup l₂ a) := by
  induction l₁ with
  | nil => rfl
  | cons p tl ih =>
    obtain ⟨k, v⟩ := p
    by_cases h : k = a
    · simp [alookup, h]
    · simp [alookup, h, ih]

/-- How many pairs of the list carry the given handle. -/
def countKey (l : List (Handle × Node)) (h : Handle) : Nat :=
  match l with
  | [] => 0
  | p :: tl => (if p.1 = h then 1 else 0) + countKey tl h

theorem countKey_pos_of_mem (l : List (Handle × Node)) (p : Handle × Node)
    (hm : p ∈ l) : 1 ≤ countKey l p.1 := by
  induction l with
  | nil => cases hm
  | cons q tl ih =>
    rcases List.mem_cons.mp hm with h | h
    · subst h; simp [countKey]
    · have := ih h
      by_cases hq : q.1 = p.1
      · simp only [countKey, if_pos hq]
        omega
      · simp only [countKey, if_neg hq]
        omega

/-- The insertion loop of `expand_normalizations` emits, for every pair
`(h, e)` it receives whose handle is fresh (not yet a column) and
pushed for a single expression, the computed column `h`, the
`Composite` computation `h = Inv(e)`, and the `Normalization`
constraint with reference `e` and inverted column `h`. -/
theorem insertNewCols_emits :
    ∀ (l : List (Handle × Node)) (cs cs' : ConstraintSet),
      insertNewCols cs l = .ok cs' →
      ∀ p ∈ l, alookup cs.columns p.1 = none → countKey l p.1 = 1 →
        Constraint.normalization
            (Handle.mk p.1.module ("NORM[" ++ p.2.key ++ "]")) p.2 p.1
            ∈ cs'.constraints ∧
        alookup cs'.computations p.1 =
          some (Computation'.composite p.1 (invertExpr p.2)) ∧
        alookup cs'.columns p.1 = some newComputedColumn := by
  intro l
  induction l with
  | nil => intro cs cs' h p hp; cases hp
  | cons q rest ih =>
    intro cs cs' h p hp hfresh hcount
    obtain ⟨h0, e0⟩ := q
    simp only [insertNewCols] at h
    rcases List.mem_cons.mp hp with hpq | hprest
    · subst hpq
      rw [if_neg (by simp [hfresh])] at h
      by_cases hcomp : (alookup cs.computations (h0, e0).1).isSome
      · rw [if_pos hcomp] at h; cases h
      · rw [if_neg hcomp] at h
        obtain ⟨tail, newcols, newcomps, s1, s2, s3, s4, _, _, _, _, _, _⟩ :=
          insertNewCols_structure rest _ cs' h
        have hcompn : alookup cs.computations (h0, e0).1 = none := by
          cases hx : alookup cs.computations (h0, e0).1
          · rfl
          · rw [hx] at hcomp; simp at hcomp
        refine ⟨?_, ?_, ?_⟩
        · rw [s1]
          simp [List.mem_append]
        · rw [s4, alookup_append, alookup_append, hcompn]
          simp [alookup]
        · rw [s3, alookup_append, alookup_append, hfresh]
          simp [alookup]
    · have hpos := countKey_pos_of_mem rest p hprest
      by_cases hq : h0 = p.1
      · exfalso
        simp only [countKey, if_pos hq] at hcount
        omega
      · have hcr : countKey rest p.1 = 1 := by
          simp only [countKey, if_neg hq] at hcount
          omega
        by_cases hcol0 : (alookup cs.columns (h0, e0).1).isSome
        · rw [if_pos hcol0] at h
          exact ih cs cs' h p hprest hfresh hcr
        · rw [if_neg hcol0] at h
          by_cases hcomp : (alookup cs.computations (h0, e0).1).isSome
          · rw [if_pos hcomp] at h; cases h
          · rw [if_neg hcomp] at h
            refine ih _ cs' h p hprest ?_ hcr
            show alookup (cs.columns ++ [((h0, e0).1, newComputedColumn)]) p.1
              = none
            rw [alookup_append, hfresh]
            simp [alookup, hq]

/-- C2 (amended): a `Normalize` node in a `Vanishes` expression that is
*not* itself constant-evaluable is rewritten in terms of its
*processed* argument `a'` (the argument after the traversal, which
replaces constant-evaluable subtrees by the inverses of their values
and expands nested `Normalize` nodes): when `a'`'s type is binary the
node becomes `a'` itself, otherwise it becomes `Mul(a', c)` for the
`Computed` column `c` named `INV_<a'>` in the module owning `a'`'s
column dependencies, and `(c, a')` is pushed for the emission loop.
In *any* constraint set on which the pass succeeds, every pushed pair
whose handle is fresh (not yet a column) and pushed for a single
expression yields the computed column, the `Composite` computation
`c = Inv(a')` and the appended `Normalization` constraint with
reference `a'` and inverted column `c`. (A constant-evaluable
`Normalize` node is instead replaced by the inverse of its value — see
the counterexample.) -/
theorem c2_normalize_rewrite :
    (∀ (gm : List ColumnRef → String) (a : Node)
       (cols : List (Handle × Node)) (t₀ : Ty),
      Node.pureEval (.funcall .normalize (.cons a .nil) t₀) = none →
      Node.doNormalize gm (.funcall .normalize (.cons a .nil) t₀) cols =
        (if ((a.doNormalize gm cols).1.t).isBinary = true then
          a.doNormalize gm cols
        else
          (Intrinsic.mul.call (.cons (a.doNormalize gm cols).1 (.cons
              (.column
                (Handle.mk (gm (a.doNormalize gm cols).1.dependencies)
                  (expressionToName (a.doNormalize gm cols).1 "INV"))
                Kind.computed t₀.invert) .nil)),
           (a.doNormalize gm cols).2 ++
             [(Handle.mk (gm (a.doNormalize gm cols).1.dependencies)
                 (expressionToName (a.doNormalize gm cols).1 "INV"),
               (a.doNormalize gm cols).1)]))) ∧
    (∀ (cs cs' : ConstraintSet), cs.expandNormalizations = .ok cs' →
      ∀ p ∈ (normalizeConstraints (fun refs => (moduleFor refs).getD "")
          cs.constraints []).2,
        alookup cs.columns p.1 = none →
        countKey (normalizeConstraints (fun refs => (moduleFor refs).getD "")
          cs.constraints []).2 p.1 = 1 →
        Constraint.normalization
            (Handle.mk p.1.module ("NORM[" ++ p.2.key ++ "]")) p.2 p.1
            ∈ cs'.constraints ∧
        alookup cs'.computations p.1 =
          some (Computation'.composite p.1 (invertExpr p.2)) ∧
        alookup cs'.columns p.1 = some newComputedColumn) := by
  constructor
  · intro gm a cols t₀ hroot
    have hlist : NodeList.doNormalizeList gm (.cons a .nil) cols =
        (.cons (a.doNormalize gm cols).1 .nil, (a.doNormalize gm cols).2) := by
      simp [NodeList.doNormalizeList]
    by_cases hb : ((a.doNormalize gm cols).1.t).isBinary = true
    · simp [Node.doNormalize, hroot, hlist, hb]
    · simp only [Bool.not_eq_true] at hb
      simp [Node.doNormalize, hroot, hlist, hb]
  · intro cs cs' h p hp hfresh hcount
    simp only [ConstraintSet.expandNormalizations] at h
    exact insertNewCols_emits _ _ _ h p hp hfresh hcount

/-- The column node `m.x` used by the C2 witness. -/
def colX : Node := .column ⟨"m", "x"⟩ Kind.atomic Ty.Numeric

/-- The result of the pass on `csNormCol`: `Normalize(x)` became
`Mul(x, INV_x)`, with the computed column, its `Inv` computation and
the `Normalization` constraint. -/
def csNormColOut : ConstraintSet :=
  { csNormCol with
    constraints :=
      [.vanishes ⟨"m", "c"⟩ none
        (Intrinsic.mul.call (.cons colX (.cons
          (.column ⟨"m", expressionToName colX "INV"⟩ Kind.computed
            Ty.Numeric.invert) .nil))),
       .normalization ⟨"m", "NORM[" ++ colX.key ++ "]"⟩ colX
         ⟨"m", expressionToName colX "INV"⟩],
    columns := csNormCol.columns ++
      [(⟨"m", expressionToName colX "INV"⟩, newComputedColumn)],
    computations := csNormCol.computations ++
      [(⟨"m", expressionToName colX "INV"⟩,
        Computation'.composite ⟨"m", expressionToName colX "INV"⟩
          (invertExpr colX))] }

/-- C2 witness: on `csNormCol` — one `Vanishes(Normalize(x))` over the
declared numeric column `m.x` — the traversal rewrites the node to
`Mul(x, INV_x)` and the pass emits the computed column, the `Composite`
`Inv(x)` computation and the `Normalization` constraint. -/
theorem c2_normalize_witness :
    Node.pureEval (.funcall .normalize (.cons colX .nil) Ty.Numeric) = none ∧
    Node.doNormalize (fun _ => "m")
        (.funcall .normalize (.cons colX .nil) Ty.Numeric) [] =
      (Intrinsic.mul.call (.cons colX (.cons
          (.column ⟨"m", expressionToName colX "INV"⟩ Kind.computed
            Ty.Numeric.invert) .nil)),
       [(⟨"m", expressionToName colX "INV"⟩, colX)]) ∧
    csNormCol.expandNormalizations = .ok csNormColOut ∧
    (normalizeConstraints (fun refs => (moduleFor refs).getD "")
        csNormCol.constraints []).2 =
      [(⟨"m", expressionToName colX "INV"⟩, colX)] ∧
    alookup csNormCol.columns ⟨"m", expressionToName colX "INV"⟩ = none ∧
    countKey (normalizeConstraints (fun refs => (moduleFor refs).getD "")
        csNormCol.constraints []).2 ⟨"m", expressionToName colX "INV"⟩ = 1 ∧
    Constraint.normalization ⟨"m", "NORM[" ++ colX.key ++ "]"⟩ colX
        ⟨"m", expressionToName colX "INV"⟩ ∈ csNormColOut.constraints ∧
    alookup csNormColOut.computations ⟨"m", expressionToName colX "INV"⟩ =
      some (Computation'.composite ⟨"m", expressionToName colX "INV"⟩
        (invertExpr colX)) ∧
    alookup csNormColOut.columns ⟨"m", expressionToName colX "INV"⟩ =
      some newComputedColumn := by
  have hlist : (normalizeConstraints (fun refs => (moduleFor refs).getD "")
      csNormCol.constraints []).2 =
      [(⟨"m", expressionToName colX "INV"⟩, colX)] := rfl
  have hmem : ((⟨"m", expressionToName colX "INV"⟩, colX) : Handle × Node) ∈
      (normalizeConstraints (fun refs => (moduleFor refs).getD "")
        csNormCol.constraints []).2 := by
    rw [hlist]
    exact List.mem_singleton_self _
  have hemit := c2_normalize_rewrite.2 csNormCol csNormColOut rfl
    (⟨"m", expressionToName colX "INV"⟩, colX) hmem rfl rfl
  have hnode := c2_normalize_rewrite.1 (fun _ => "m") colX [] Ty.Numeric rfl
  exact ⟨rfl, hnode.trans (by rfl), rfl, hlist, rfl, rfl,
    hemit.1, hemit.2.1, hemit.2.2⟩
